import Mathlib

/-!
Verification of the CSC sparse-matrix conversion kernel in
`src/rcpp_sparsemat.cpp` (functions `sp_transpose`, `spamx_transpose`,
`sp_to_dense`, `spamx_to_dense`, `sp_to_dense_transposed`,
`spamx_to_dense_transposed`).

The embedding is shallow: each C++ loop becomes a structurally recursive
Lean function processing loop indices in the same order; C++ array reads
`a[k]` become `List.getD a k 0` and writes become `List.set`.  Machine
integers (`int` in the narrow variant, `size_t` in the wide variant) are
modelled as `Nat`; this is exact as long as no overflow occurs, which the
well-formedness hypotheses used by the theorems guarantee.  Values (`double`)
are only ever copied, never computed with, so they are modelled as `Int`.

Separately, `..._checked` variants thread `Option` through every array
access, returning `none` exactly when the C++ code would touch an index
outside the bounds of the corresponding buffer.  These are used to settle
the safety claim about empty matrices.
-/

namespace Fastde

/-- CSC sparse matrix.  Modelled from the spec: the `Rcpp::dgCMatrix` and
`Rcpp::spamx64` wrapper classes live in `rcpp_data_utils.hpp`, which is not
among the provided sources; per spec section 3 the object carries the shape
`Dim = [nrow, ncol]`, the column pointer `p` (length `ncol + 1`), the row
indices `i` and values `x` (length `nnz = p[ncol]`), and the two label
sequences of `Dimnames`.  The constructor `dgCMatrix(nr, nc, nz)` allocates
`p` of length `nr + 1` and `i`, `x` of length `nz`; allocation does not
initialize storage, but every cell is written before being read by the code
under study, so fresh storage is modelled as zero-filled. -/
@[ext]
structure dgCMatrix where
  nrow : Nat
  ncol : Nat
  p : List Nat
  i : List Nat
  x : List Int
  rowNames : List String
  colNames : List String
deriving Repr, DecidableEq

/-- Dense matrix as produced by `Rcpp::NumericMatrix dense(nr, nc)`:
column-major storage of `nr * nc` reals, zero-initialized, with an optional
`dimnames` attribute which a freshly allocated matrix does not carry. -/
structure NumericMatrix where
  nrow : Nat
  ncol : Nat
  data : List Int
  dimnames : Option (List String × List String)
deriving Repr, DecidableEq

/-- `dense(r, c)` of a column-major dense matrix. -/
def denseGet (d : NumericMatrix) (r c : Nat) : Int :=
  d.data.getD (r + c * d.nrow) 0

/-! ### Transpose (`sp_transpose`, lines 169-252; `spamx_transpose`, lines 265-348)

The two C++ functions have textually identical bodies; they differ only in
the integer width used for indices (`int` vs `size_t`), which the `Nat`
embedding erases.  The loop helpers below are therefore shared; the two
exported entry points are kept separate, mirroring the source. -/

/-- Count pass (source lines 215-217): for `e = 0, …, n-1` increment
`tp[i[e] + 1]`. -/
def countLoop (iv : List Nat) (tp : List Nat) : Nat → List Nat
  | 0 => tp
  | n + 1 =>
    let t := countLoop iv tp n
    t.set (iv.getD n 0 + 1) (t.getD (iv.getD n 0 + 1) 0 + 1)

/-- Prefix-sum pass (source lines 220-222): for `r = 1, …, k` do
`tp[r] += tp[r-1]`. -/
def prefixLoop (tp : List Nat) : Nat → List Nat
  | 0 => tp
  | r + 1 =>
    let t := prefixLoop tp r
    t.set (r + 1) (t.getD (r + 1) 0 + t.getD r 0)

/-- The column-advance loop of the scatter pass (source line 233):
`for (; e >= p[cid+1]; ++cid);`.  The C++ loop is unbounded; under the
well-formedness precondition (`p` monotone with `p[ncol] = nnz > e`) it
performs at most `ncol` increments, so it is modelled with fuel `ncol`
supplied at each call site. -/
def advanceCid (p : List Nat) (e : Nat) : Nat → Nat → Nat
  | 0, cid => cid
  | f + 1, cid =>
    if p.getD (cid + 1) 0 ≤ e then advanceCid p e f (cid + 1) else cid

/-- State of the scatter pass: current source column `cid`, the output
offset array `tp` (used as per-bucket write cursor), and the output row
index and value arrays. -/
structure TState where
  cid : Nat
  tp : List Nat
  ti : List Nat
  tx : List Int
deriving Repr, DecidableEq

/-- One iteration of the scatter pass (source lines 228-242). -/
def scatterStep (m : dgCMatrix) (e : Nat) (st : TState) : TState :=
  let rid := m.i.getD e 0
  let val := m.x.getD e 0
  let cid := advanceCid m.p e m.ncol st.cid
  let pos := st.tp.getD rid 0
  { cid := cid
    tp := st.tp.set rid (pos + 1)
    ti := st.ti.set pos cid
    tx := st.tx.set pos val }

/-- Scatter pass over entries `0, …, n-1` in storage order. -/
def scatterLoop (m : dgCMatrix) (st : TState) : Nat → TState
  | 0 => st
  | n + 1 => scatterStep m n (scatterLoop m st n)

/-- Offset-restore pass (source lines 243-248): `off = tp[0]; tp[0] = 0;`
then for `r = 1, …, k` swap `off` and `tp[r]`.  Returns the final carried
`off` together with the repaired array. -/
def shiftLoop (tp : List Nat) : Nat → Nat × List Nat
  | 0 => (tp.getD 0 0, tp.set 0 0)
  | r + 1 =>
    let s := shiftLoop tp r
    (s.2.getD (r + 1) 0, s.2.set (r + 1) s.1)

/-- `sp_transpose` (source lines 169-252). -/
def sp_transpose (m : dgCMatrix) : dgCMatrix :=
  let nelem := m.p.getD m.ncol 0
  let st := scatterLoop m
    { cid := 0
      tp := prefixLoop (countLoop m.i (List.replicate (m.nrow + 1) 0) nelem) m.nrow
      ti := List.replicate nelem 0
      tx := List.replicate nelem 0 } nelem
  { nrow := m.ncol
    ncol := m.nrow
    p := (shiftLoop st.tp m.nrow).2
    i := st.ti
    x := st.tx
    rowNames := m.colNames
    colNames := m.rowNames }

/-- `spamx_transpose` (source lines 265-348): same body as `sp_transpose`
with `size_t` instead of `int` indices. -/
def spamx_transpose (m : dgCMatrix) : dgCMatrix :=
  let nelem := m.p.getD m.ncol 0
  let st := scatterLoop m
    { cid := 0
      tp := prefixLoop (countLoop m.i (List.replicate (m.nrow + 1) 0) nelem) m.nrow
      ti := List.replicate nelem 0
      tx := List.replicate nelem 0 } nelem
  { nrow := m.ncol
    ncol := m.nrow
    p := (shiftLoop st.tp m.nrow).2
    i := st.ti
    x := st.tx
    rowNames := m.colNames
    colNames := m.rowNames }

/-! ### Densify (`sp_to_dense` lines 471-516, `spamx_to_dense` lines 531-577,
`sp_to_dense_transposed` lines 590-636, `spamx_to_dense_transposed`
lines 650-696)

All four share the same column-tracking scatter loop
`size_t c=0, c_end=p[1]; for e: { if (e == c_end) { ++c; c_end = p[c+1]; } … }`;
the two plain variants write `dense(i[e], c)`, the two transposed variants
write `dense(c, i[e])`. -/

/-- State of the densify loop: current column `c`, cached boundary `cEnd`,
and the dense buffer. -/
structure DState where
  c : Nat
  cEnd : Nat
  data : List Int
deriving Repr, DecidableEq

/-- One iteration of the `sp_to_dense` loop (source lines 507-513);
`nr` is the number of rows of the dense output, the write target is
`dense(i[e], c)`, i.e. flat index `i[e] + c * nr`. -/
def denseStepD (m : dgCMatrix) (e : Nat) (st : DState) : DState :=
  let st1 := if e = st.cEnd
    then { st with c := st.c + 1, cEnd := m.p.getD (st.c + 2) 0 }
    else st
  { st1 with data := st1.data.set (m.i.getD e 0 + st1.c * m.nrow) (m.x.getD e 0) }

def denseLoopD (m : dgCMatrix) (st : DState) : Nat → DState
  | 0 => st
  | n + 1 => denseStepD m n (denseLoopD m st n)

/-- `sp_to_dense` (source lines 471-516). -/
def sp_to_dense (m : dgCMatrix) : NumericMatrix :=
  let nelem := m.p.getD m.ncol 0
  let st := denseLoopD m
    { c := 0
      cEnd := m.p.getD 1 0
      data := List.replicate (m.nrow * m.ncol) 0 } nelem
  { nrow := m.nrow, ncol := m.ncol, data := st.data, dimnames := none }

/-- `spamx_to_dense` (source lines 531-577): same body as `sp_to_dense`. -/
def spamx_to_dense (m : dgCMatrix) : NumericMatrix :=
  let nelem := m.p.getD m.ncol 0
  let st := denseLoopD m
    { c := 0
      cEnd := m.p.getD 1 0
      data := List.replicate (m.nrow * m.ncol) 0 } nelem
  { nrow := m.nrow, ncol := m.ncol, data := st.data, dimnames := none }

/-- One iteration of the `sp_to_dense_transposed` loop (source lines
627-633); the dense output has `ncol` rows and the write target is
`dense(c, i[e])`, i.e. flat index `c + i[e] * ncol`. -/
def denseStepT (m : dgCMatrix) (e : Nat) (st : DState) : DState :=
  let st1 := if e = st.cEnd
    then { st with c := st.c + 1, cEnd := m.p.getD (st.c + 2) 0 }
    else st
  { st1 with data := st1.data.set (st1.c + m.i.getD e 0 * m.ncol) (m.x.getD e 0) }

def denseLoopT (m : dgCMatrix) (st : DState) : Nat → DState
  | 0 => st
  | n + 1 => denseStepT m n (denseLoopT m st n)

/-- `sp_to_dense_transposed` (source lines 590-636). -/
def sp_to_dense_transposed (m : dgCMatrix) : NumericMatrix :=
  let nelem := m.p.getD m.ncol 0
  let st := denseLoopT m
    { c := 0
      cEnd := m.p.getD 1 0
      data := List.replicate (m.ncol * m.nrow) 0 } nelem
  { nrow := m.ncol, ncol := m.nrow, data := st.data, dimnames := none }

/-- `spamx_to_dense_transposed` (source lines 650-696): same body as
`sp_to_dense_transposed`. -/
def spamx_to_dense_transposed (m : dgCMatrix) : NumericMatrix :=
  let nelem := m.p.getD m.ncol 0
  let st := denseLoopT m
    { c := 0
      cEnd := m.p.getD 1 0
      data := List.replicate (m.ncol * m.nrow) 0 } nelem
  { nrow := m.ncol, ncol := m.nrow, data := st.data, dimnames := none }

/-! ### Well-formedness and canonical form (spec section 3) -/

/-- Well-formed CSC data (spec section 3): `p` has length `ncol + 1`, starts
at 0, is monotone; `i` and `x` have length `nnz = p[ncol]`; all row indices
are below `nrow`. -/
def WF (m : dgCMatrix) : Prop :=
  m.p.length = m.ncol + 1 ∧
  m.i.length = m.p.getD m.ncol 0 ∧
  m.x.length = m.p.getD m.ncol 0 ∧
  m.p.getD 0 0 = 0 ∧
  (∀ b, b ≤ m.ncol → ∀ a, a ≤ b → m.p.getD a 0 ≤ m.p.getD b 0) ∧
  (∀ e, e < m.p.getD m.ncol 0 → m.i.getD e 0 < m.nrow)

/-- Strictly increasing row indices inside every column slice of a CSC
matrix with column pointer `p` and row index array `iv`. -/
def colSorted (p : List Nat) (iv : List Nat) (ncol : Nat) : Prop :=
  ∀ c, c < ncol → ∀ e2, e2 < p.getD (c + 1) 0 → ∀ e1, e1 < e2 →
    p.getD c 0 ≤ e1 → iv.getD e1 0 < iv.getD e2 0

/-- Canonical CSC matrix: well-formed with strictly increasing row indices
within each column. -/
def Canonical (m : dgCMatrix) : Prop :=
  WF m ∧ colSorted m.p m.i m.ncol

/-! ### Specification-side helpers (used to state and prove the theorems) -/

/-- Number of list entries strictly below `r`. -/
def cntB (l : List Nat) (r : Nat) : Nat :=
  l.countP (fun v => decide (v < r))

/-- Number of list entries equal to `r`. -/
def cntEq (l : List Nat) (r : Nat) : Nat :=
  l.countP (fun v => decide (v = r))

/-- Destination position of entry `e` under the counting-sort scatter:
start offset of bucket `iv[e]` plus the number of earlier entries of the
same bucket. -/
def dest (iv : List Nat) (e : Nat) : Nat :=
  cntB iv (iv.getD e 0) + cntEq (iv.take e) (iv.getD e 0)

/-- The column of stored entry `e` of a CSC matrix: the number of columns
`c < ncol` whose slice ends at or before `e`.  For monotone `p` with
`p[0] = 0 ≤ e < p[ncol]` this is the unique `c` with `p[c] ≤ e < p[c+1]`. -/
def colOf (p : List Nat) (ncol e : Nat) : Nat :=
  ((Finset.range ncol).filter (fun c => p.getD (c + 1) 0 ≤ e)).card

/-- The stored entries of a CSC matrix, as a list of
(row, column, value) triples in storage order. -/
def entries (m : dgCMatrix) : List (Nat × Nat × Int) :=
  (List.range (m.p.getD m.ncol 0)).map
    (fun e => (m.i.getD e 0, colOf m.p m.ncol e, m.x.getD e 0))

/-- Transpose of an entry triple: swap row and column. -/
def swapEntry (t : Nat × Nat × Int) : Nat × Nat × Int :=
  (t.2.1, t.1, t.2.2)

/-! ### Bounds-checked variants

Each `..._checked` function performs exactly the same array accesses as the
corresponding unchecked embedding (hence as the C++ code), but every read
`a[k]` goes through `a[k]?` and every write through `setChk`; the result is
`none` exactly when some access falls outside the buffer.  The while loop of
the scatter pass additionally returns `none` when its fuel is exhausted,
since the C++ loop would then be reading past the end of `p` unboundedly. -/

/-- Bounds-checked array write. -/
def setChk {α : Type} (l : List α) (k : Nat) (a : α) : Option (List α) :=
  if k < l.length then some (l.set k a) else none

def countLoopChk (iv : List Nat) (tp : List Nat) : Nat → Option (List Nat)
  | 0 => some tp
  | n + 1 => do
    let t ← countLoopChk iv tp n
    let r ← iv[n]?
    let cur ← t[r + 1]?
    setChk t (r + 1) (cur + 1)

def prefixLoopChk (tp : List Nat) : Nat → Option (List Nat)
  | 0 => some tp
  | r + 1 => do
    let t ← prefixLoopChk tp r
    let a ← t[r + 1]?
    let b ← t[r]?
    setChk t (r + 1) (a + b)

def advanceCidChk (p : List Nat) (e : Nat) : Nat → Nat → Option Nat
  | 0, _ => none
  | f + 1, cid => do
    let v ← p[cid + 1]?
    if v ≤ e then advanceCidChk p e f (cid + 1) else some cid

def scatterStepChk (m : dgCMatrix) (e : Nat) (st : TState) : Option TState := do
  let rid ← m.i[e]?
  let val ← m.x[e]?
  let cid ← advanceCidChk m.p e m.ncol st.cid
  let pos ← st.tp[rid]?
  let tp ← setChk st.tp rid (pos + 1)
  let ti ← setChk st.ti pos cid
  let tx ← setChk st.tx pos val
  some ⟨cid, tp, ti, tx⟩

def scatterLoopChk (m : dgCMatrix) (st : TState) : Nat → Option TState
  | 0 => some st
  | n + 1 => do scatterStepChk m n (← scatterLoopChk m st n)

def shiftLoopChk (tp : List Nat) : Nat → Option (Nat × List Nat)
  | 0 => do
    let off ← tp[0]?
    let t ← setChk tp 0 0
    some (off, t)
  | r + 1 => do
    let s ← shiftLoopChk tp r
    let v ← s.2[r + 1]?
    let t ← setChk s.2 (r + 1) s.1
    some (v, t)

def sp_transpose_checked (m : dgCMatrix) : Option dgCMatrix := do
  let nelem ← m.p[m.ncol]?
  let tp1 ← countLoopChk m.i (List.replicate (m.nrow + 1) 0) nelem
  let tp2 ← prefixLoopChk tp1 m.nrow
  let st ← scatterLoopChk m ⟨0, tp2, List.replicate nelem 0, List.replicate nelem 0⟩ nelem
  let sh ← shiftLoopChk st.tp m.nrow
  some ⟨m.ncol, m.nrow, sh.2, st.ti, st.tx, m.colNames, m.rowNames⟩

def spamx_transpose_checked (m : dgCMatrix) : Option dgCMatrix := do
  let nelem ← m.p[m.ncol]?
  let tp1 ← countLoopChk m.i (List.replicate (m.nrow + 1) 0) nelem
  let tp2 ← prefixLoopChk tp1 m.nrow
  let st ← scatterLoopChk m ⟨0, tp2, List.replicate nelem 0, List.replicate nelem 0⟩ nelem
  let sh ← shiftLoopChk st.tp m.nrow
  some ⟨m.ncol, m.nrow, sh.2, st.ti, st.tx, m.colNames, m.rowNames⟩

def denseStepChkD (m : dgCMatrix) (e : Nat) (st : DState) : Option DState := do
  let st1 ← if e = st.cEnd then do
      let ce ← m.p[st.c + 2]?
      some { st with c := st.c + 1, cEnd := ce }
    else some st
  let rid ← m.i[e]?
  let v ← m.x[e]?
  let d ← setChk st1.data (rid + st1.c * m.nrow) v
  some { st1 with data := d }

def denseLoopChkD (m : dgCMatrix) (st : DState) : Nat → Option DState
  | 0 => some st
  | n + 1 => do denseStepChkD m n (← denseLoopChkD m st n)

def sp_to_dense_checked (m : dgCMatrix) : Option NumericMatrix := do
  let nelem ← m.p[m.ncol]?
  let ce ← m.p[1]?
  let st ← denseLoopChkD m ⟨0, ce, List.replicate (m.nrow * m.ncol) 0⟩ nelem
  some ⟨m.nrow, m.ncol, st.data, none⟩

def spamx_to_dense_checked (m : dgCMatrix) : Option NumericMatrix := do
  let nelem ← m.p[m.ncol]?
  let ce ← m.p[1]?
  let st ← denseLoopChkD m ⟨0, ce, List.replicate (m.nrow * m.ncol) 0⟩ nelem
  some ⟨m.nrow, m.ncol, st.data, none⟩

def denseStepChkT (m : dgCMatrix) (e : Nat) (st : DState) : Option DState := do
  let st1 ← if e = st.cEnd then do
      let ce ← m.p[st.c + 2]?
      some { st with c := st.c + 1, cEnd := ce }
    else some st
  let rid ← m.i[e]?
  let v ← m.x[e]?
  let d ← setChk st1.data (st1.c + rid * m.ncol) v
  some { st1 with data := d }

def denseLoopChkT (m : dgCMatrix) (st : DState) : Nat → Option DState
  | 0 => some st
  | n + 1 => do denseStepChkT m n (← denseLoopChkT m st n)

def sp_to_dense_transposed_checked (m : dgCMatrix) : Option NumericMatrix := do
  let nelem ← m.p[m.ncol]?
  let ce ← m.p[1]?
  let st ← denseLoopChkT m ⟨0, ce, List.replicate (m.ncol * m.nrow) 0⟩ nelem
  some ⟨m.ncol, m.nrow, st.data, none⟩

def spamx_to_dense_transposed_checked (m : dgCMatrix) : Option NumericMatrix := do
  let nelem ← m.p[m.ncol]?
  let ce ← m.p[1]?
  let st ← denseLoopChkT m ⟨0, ce, List.replicate (m.ncol * m.nrow) 0⟩ nelem
  some ⟨m.ncol, m.nrow, st.data, none⟩

/-! ### Decidability and concrete test matrices -/

instance (m : dgCMatrix) : Decidable (WF m) := by
  unfold WF; infer_instance

instance (p iv : List Nat) (ncol : Nat) : Decidable (colSorted p iv ncol) := by
  unfold colSorted; infer_instance

instance (m : dgCMatrix) : Decidable (Canonical m) := by
  unfold Canonical; infer_instance

/-- The concrete 3x2 matrix of spec section 8: entries (0,0,1), (2,0,2),
(1,1,3). -/
def Mex : dgCMatrix :=
  ⟨3, 2, [0, 2, 3], [0, 2, 1], [1, 2, 3], ["r0", "r1", "r2"], ["c0", "c1"]⟩

/-- A fully dense 2x2 matrix, used to witness the sortedness claim on a
transposed column with two entries. -/
def M2 : dgCMatrix :=
  ⟨2, 2, [0, 2, 4], [0, 1, 0, 1], [10, 20, 30, 40], ["r0", "r1"], ["c0", "c1"]⟩

/-- A canonical 1x3 matrix whose only entry sits in column 2, after two
consecutive empty columns: `colPtr = [0,0,0,1]`. -/
def Mbug : dgCMatrix :=
  ⟨1, 3, [0, 0, 0, 1], [0], [5], ["r0"], ["c0", "c1", "c2"]⟩

/-- The 0x0 empty matrix. -/
def M00 : dgCMatrix := ⟨0, 0, [0], [], [], [], []⟩

/-- A 2x3 matrix with no stored entries. -/
def Mempty : dgCMatrix :=
  ⟨2, 3, [0, 0, 0, 0], [], [], ["r0", "r1"], ["c0", "c1", "c2"]⟩

/-- The scatter-pass start state of `sp_transpose` after the count and
prefix-sum passes (proof-side abbreviation for the state built inside
`sp_transpose`). -/
def initState (m : dgCMatrix) : TState :=
  { cid := 0
    tp := prefixLoop (countLoop m.i (List.replicate (m.nrow + 1) 0) (m.p.getD m.ncol 0)) m.nrow
    ti := List.replicate (m.p.getD m.ncol 0) 0
    tx := List.replicate (m.p.getD m.ncol 0) 0 }

/-! ### Basic lemmas about `getD`, `set`, `take` -/

theorem getD_set_eq {α : Type} (l : List α) (n : Nat) (a d : α) (h : n < l.length) :
    (l.set n a).getD n d = a := by
  rw [List.getD_eq_getElem?_getD, List.getElem?_set_self h, Option.getD_some]

theorem getD_set_ne {α : Type} (l : List α) {n j : Nat} (a d : α) (h : n ≠ j) :
    (l.set n a).getD j d = l.getD j d := by
  rw [List.getD_eq_getElem?_getD, List.getElem?_set_ne h, ← List.getD_eq_getElem?_getD]

theorem getD_replicate {α : Type} {k n : Nat} (a d : α) (h : n < k) :
    (List.replicate k a).getD n d = a := by
  rw [List.getD_eq_getElem?_getD, List.getElem?_replicate, if_pos h, Option.getD_some]

theorem getD_of_le {α : Type} (l : List α) {n : Nat} (d : α) (h : l.length ≤ n) :
    l.getD n d = d := by
  rw [List.getD_eq_getElem?_getD, List.getElem?_eq_none h, Option.getD_none]

theorem getD_take {α : Type} (l : List α) {q n : Nat} (d : α) (h : n < q) :
    (l.take q).getD n d = l.getD n d := by
  rw [List.getD_eq_getElem?_getD, List.getElem?_take, if_pos h,
    ← List.getD_eq_getElem?_getD]

theorem countP_take_le {α : Type} (pb : α → Bool) (l : List α) (n : Nat) :
    (l.take n).countP pb ≤ l.countP pb := by
  conv_rhs => rw [← List.take_append_drop n l]
  rw [List.countP_append]
  exact Nat.le_add_right _ _

/-! ### Counting lemmas for `cntB`, `cntEq` -/

theorem cntB_zero (l : List Nat) : cntB l 0 = 0 := by
  simp [cntB]

theorem cntB_succ (l : List Nat) (r : Nat) : cntB l (r + 1) = cntB l r + cntEq l r := by
  induction l with
  | nil => rfl
  | cons a t ih =>
    simp only [cntB, cntEq, List.countP_cons, decide_eq_true_eq] at ih ⊢
    rw [ih]
    split_ifs <;> omega

theorem cntB_le_length (l : List Nat) (r : Nat) : cntB l r ≤ l.length :=
  List.countP_le_length _

theorem cntB_mono (l : List Nat) {r s : Nat} (h : r ≤ s) : cntB l r ≤ cntB l s := by
  apply List.countP_mono_left
  intro x _ hx
  simp only [decide_eq_true_eq] at hx ⊢
  omega

theorem cntB_eq_length (l : List Nat) {r : Nat} (h : ∀ v ∈ l, v < r) :
    cntB l r = l.length := by
  apply List.countP_eq_length.mpr
  intro a ha
  simpa using h a ha

theorem cntEq_take_succ (l : List Nat) {e : Nat} (he : e < l.length) (r : Nat) :
    cntEq (l.take (e + 1)) r =
      cntEq (l.take e) r + if l.getD e 0 = r then 1 else 0 := by
  rw [cntEq, cntEq, List.take_succ, List.countP_append, List.getElem?_eq_getElem he]
  congr 1
  rw [List.getD_eq_getElem l 0 he]
  simp [List.countP_cons]

theorem cntEq_take_le (l : List Nat) {e f : Nat} (h : e ≤ f) (r : Nat) :
    cntEq (l.take e) r ≤ cntEq (l.take f) r := by
  have h1 : l.take e = (l.take f).take e := by
    rw [List.take_take, Nat.min_eq_left h]
  rw [h1]
  exact countP_take_le _ _ _

theorem cntEq_take_lt (l : List Nat) {e : Nat} (he : e < l.length) :
    cntEq (l.take e) (l.getD e 0) < cntEq l (l.getD e 0) := by
  have h1 := cntEq_take_succ l he (l.getD e 0)
  rw [if_pos rfl] at h1
  have h2 := cntEq_take_le l (show e + 1 ≤ l.length by omega) (l.getD e 0)
  rw [List.take_length] at h2
  omega

/-! ### The destination map of the counting-sort scatter -/

theorem cntB_le_dest (iv : List Nat) (e : Nat) : cntB iv (iv.getD e 0) ≤ dest iv e :=
  Nat.le_add_right _ _

theorem dest_lt (iv : List Nat) {e : Nat} (he : e < iv.length) :
    dest iv e < cntB iv (iv.getD e 0 + 1) := by
  rw [dest, cntB_succ]
  exact Nat.add_lt_add_left (cntEq_take_lt iv he) _

theorem dest_lt_length (iv : List Nat) {e : Nat} (he : e < iv.length) :
    dest iv e < iv.length :=
  lt_of_lt_of_le (dest_lt iv he) (cntB_le_length _ _)

theorem dest_bucket (iv : List Nat) {e r : Nat} (he : e < iv.length)
    (h1 : cntB iv r ≤ dest iv e) (h2 : dest iv e < cntB iv (r + 1)) :
    iv.getD e 0 = r := by
  rcases Nat.lt_trichotomy (iv.getD e 0) r with h | h | h
  · have ha := cntB_mono iv (show iv.getD e 0 + 1 ≤ r by omega)
    have hb := dest_lt iv he
    omega
  · exact h
  · have ha := cntB_mono iv (show r + 1 ≤ iv.getD e 0 by omega)
    have hb := cntB_le_dest iv e
    omega

theorem dest_mono_same (iv : List Nat) {e1 e2 : Nat} (h12 : e1 < e2)
    (he1 : e1 < iv.length) (h : iv.getD e1 0 = iv.getD e2 0) :
    dest iv e1 < dest iv e2 := by
  rw [dest, dest, ← h]
  apply Nat.add_lt_add_left
  have hs := cntEq_take_succ iv he1 (iv.getD e1 0)
  rw [if_pos rfl] at hs
  have hl := cntEq_take_le iv (show e1 + 1 ≤ e2 by omega) (iv.getD e1 0)
  omega

theorem dest_mono_diff (iv : List Nat) {e1 e2 : Nat} (he1 : e1 < iv.length)
    (h : iv.getD e1 0 < iv.getD e2 0) : dest iv e1 < dest iv e2 :=
  calc dest iv e1 < cntB iv (iv.getD e1 0 + 1) := dest_lt iv he1
  _ ≤ cntB iv (iv.getD e2 0) := cntB_mono iv (by omega)
  _ ≤ dest iv e2 := cntB_le_dest iv e2

theorem dest_inj (iv : List Nat) {e1 e2 : Nat} (he1 : e1 < iv.length)
    (he2 : e2 < iv.length) (h : dest iv e1 = dest iv e2) : e1 = e2 := by
  rcases Nat.lt_trichotomy e1 e2 with ho | ho | ho
  · exfalso
    rcases Nat.lt_trichotomy (iv.getD e1 0) (iv.getD e2 0) with hv | hv | hv
    · have := dest_mono_diff iv he1 hv; omega
    · have := dest_mono_same iv ho he1 hv; omega
    · have := dest_mono_diff iv he2 hv; omega
  · exact ho
  · exfalso
    rcases Nat.lt_trichotomy (iv.getD e2 0) (iv.getD e1 0) with hv | hv | hv
    · have := dest_mono_diff iv he2 hv; omega
    · have := dest_mono_same iv ho he2 hv; omega
    · have := dest_mono_diff iv he1 hv; omega

theorem dest_surj (iv : List Nat) {q : Nat} (hq : q < iv.length) :
    ∃ e, e < iv.length ∧ dest iv e = q := by
  classical
  have himg : (Finset.range iv.length).image (dest iv) = Finset.range iv.length := by
    apply Finset.eq_of_subset_of_card_le
    · intro b hb
      rcases Finset.mem_image.mp hb with ⟨a, ha, hab⟩
      rw [Finset.mem_range] at ha ⊢
      rw [← hab]
      exact dest_lt_length iv ha
    · rw [Finset.card_image_of_injOn]
      intro a ha b hb hab
      exact dest_inj iv (Finset.mem_range.mp (Finset.mem_coe.mp ha))
        (Finset.mem_range.mp (Finset.mem_coe.mp hb)) hab
  have hmem : q ∈ (Finset.range iv.length).image (dest iv) := by
    rw [himg, Finset.mem_range]; exact hq
  rcases Finset.mem_image.mp hmem with ⟨e, he, hde⟩
  exact ⟨e, Finset.mem_range.mp he, hde⟩

/-! ### Bridging list counts and position counts -/

theorem countP_positions {α : Type} (l : List α) (d : α) (pb : α → Bool) :
    (List.range l.length).countP (fun q => pb (l.getD q d)) = l.countP pb := by
  induction l with
  | nil => rfl
  | cons a t ih =>
    rw [List.length_cons, List.range_succ_eq_map, List.countP_cons, List.countP_map]
    have hc : ((fun q => pb ((a :: t).getD q d)) ∘ Nat.succ) =
        (fun q => pb (t.getD q d)) := by
      funext q; rfl
    rw [hc, ih, List.countP_cons]
    rfl

theorem countP_range_card (n : Nat) (pb : Nat → Bool) :
    (List.range n).countP pb = ((Finset.range n).filter (fun q => pb q = true)).card := by
  induction n with
  | zero => rfl
  | succ k ih =>
    rw [List.range_succ, List.countP_append, ih, Finset.range_succ, Finset.filter_insert]
    by_cases h : pb k = true
    · rw [if_pos h, Finset.card_insert_of_not_mem (by simp)]
      simp [List.countP_cons, h]
    · rw [if_neg h]
      simp [List.countP_cons, h]

theorem cntB_positions (l : List Nat) (r : Nat) :
    cntB l r = ((Finset.range l.length).filter (fun q => l.getD q 0 < r)).card := by
  rw [cntB, ← countP_positions l 0 (fun v => decide (v < r)), countP_range_card]
  congr 1
  apply Finset.filter_congr
  intro q _
  simp

theorem cntEq_positions (l : List Nat) (r : Nat) :
    cntEq l r = ((Finset.range l.length).filter (fun q => l.getD q 0 = r)).card := by
  rw [cntEq, ← countP_positions l 0 (fun v => decide (v = r)), countP_range_card]
  congr 1
  apply Finset.filter_congr
  intro q _
  simp

theorem cntEq_take_positions (l : List Nat) {q : Nat} (hq : q ≤ l.length) (r : Nat) :
    cntEq (l.take q) r = ((Finset.range q).filter (fun e => l.getD e 0 = r)).card := by
  rw [cntEq_positions]
  have hlen : (l.take q).length = q := by rw [List.length_take]; omega
  rw [hlen]
  congr 1
  apply Finset.filter_congr
  intro e he
  rw [Finset.mem_range] at he
  rw [getD_take l 0 he]

/-! ### The source-column function `colOf` -/

theorem colOf_le_ncol (p : List Nat) (ncol e : Nat) : colOf p ncol e ≤ ncol := by
  rw [colOf]
  calc ((Finset.range ncol).filter _).card ≤ (Finset.range ncol).card :=
        Finset.card_le_card (Finset.filter_subset _ _)
  _ = ncol := Finset.card_range ncol

theorem colOf_filter_eq (p : List Nat) (ncol : Nat)
    (hmono : ∀ b, b ≤ ncol → ∀ a, a ≤ b → p.getD a 0 ≤ p.getD b 0) (e : Nat) :
    (Finset.range ncol).filter (fun c => p.getD (c + 1) 0 ≤ e) =
      Finset.range (colOf p ncol e) := by
  classical
  set S := (Finset.range ncol).filter (fun c => p.getD (c + 1) 0 ≤ e) with hS
  have hdc : ∀ c ∈ S, ∀ b, b ≤ c → b ∈ S := by
    intro c hc b hb
    rw [hS, Finset.mem_filter, Finset.mem_range] at hc ⊢
    exact ⟨by omega, le_trans (hmono (c + 1) (by omega) (b + 1) (by omega)) hc.2⟩
  have hcard : colOf p ncol e = S.card := rfl
  rw [hcard]
  rcases S.eq_empty_or_nonempty with hemp | hne
  · rw [hemp]
    rfl
  · have hSeq : S = Finset.range (S.max' hne + 1) := by
      ext c
      rw [Finset.mem_range]
      constructor
      · intro hc
        have := Finset.le_max' S c hc
        omega
      · intro hc
        exact hdc _ (Finset.max'_mem S hne) c (by omega)
    have hc2 : S.card = S.max' hne + 1 := by
      conv_lhs => rw [hSeq]
      rw [Finset.card_range]
    rw [hc2]
    exact hSeq

theorem colOf_spec (p : List Nat) (ncol : Nat)
    (hmono : ∀ b, b ≤ ncol → ∀ a, a ≤ b → p.getD a 0 ≤ p.getD b 0)
    (hp0 : p.getD 0 0 = 0) {e : Nat} (he : e < p.getD ncol 0) :
    p.getD (colOf p ncol e) 0 ≤ e ∧ e < p.getD (colOf p ncol e + 1) 0 ∧
      colOf p ncol e < ncol := by
  have hfe := colOf_filter_eq p ncol hmono e
  have hncpos : 0 < ncol := by
    rcases Nat.eq_zero_or_pos ncol with h0 | h
    · rw [h0, hp0] at he; omega
    · exact h
  have hklt : colOf p ncol e < ncol := by
    by_contra hk
    have hcol : colOf p ncol e = ncol :=
      le_antisymm (colOf_le_ncol _ _ _) (by omega)
    have hm : (ncol - 1) ∈ Finset.range (colOf p ncol e) := by
      rw [hcol, Finset.mem_range]; omega
    rw [← hfe, Finset.mem_filter] at hm
    have h2 := hm.2
    have h3 : ncol - 1 + 1 = ncol := by omega
    rw [h3] at h2
    omega
  refine ⟨?_, ?_, hklt⟩
  · rcases Nat.eq_zero_or_pos (colOf p ncol e) with h0 | hpos
    · rw [h0, hp0]; omega
    · have hm : (colOf p ncol e - 1) ∈ Finset.range (colOf p ncol e) := by
        rw [Finset.mem_range]; omega
      rw [← hfe, Finset.mem_filter] at hm
      have h2 := hm.2
      have h3 : colOf p ncol e - 1 + 1 = colOf p ncol e := by omega
      rw [h3] at h2
      exact h2
  · by_contra hcon
    have hm : colOf p ncol e ∈
        (Finset.range ncol).filter (fun c => p.getD (c + 1) 0 ≤ e) :=
      Finset.mem_filter.mpr ⟨Finset.mem_range.mpr hklt, by omega⟩
    rw [hfe, Finset.mem_range] at hm
    omega

theorem colOf_eq_of (p : List Nat) (ncol : Nat)
    (hmono : ∀ b, b ≤ ncol → ∀ a, a ≤ b → p.getD a 0 ≤ p.getD b 0)
    (hp0 : p.getD 0 0 = 0) {c e : Nat} (he : e < p.getD ncol 0) (hc : c < ncol)
    (h1 : p.getD c 0 ≤ e) (h2 : e < p.getD (c + 1) 0) : colOf p ncol e = c := by
  obtain ⟨hk1, hk2, hk3⟩ := colOf_spec p ncol hmono hp0 he
  rcases Nat.lt_trichotomy (colOf p ncol e) c with h | h | h
  · have := hmono c hc.le (colOf p ncol e + 1) (by omega)
    omega
  · exact h
  · have := hmono (colOf p ncol e) (by omega) (c + 1) (by omega)
    omega

theorem colOf_mono (p : List Nat) (ncol : Nat) {e f : Nat} (h : e ≤ f) :
    colOf p ncol e ≤ colOf p ncol f := by
  apply Finset.card_le_card
  intro c hc
  rw [Finset.mem_filter] at hc ⊢
  exact ⟨hc.1, le_trans hc.2 h⟩

theorem colOf_lt_iff (p : List Nat) (ncol : Nat)
    (hmono : ∀ b, b ≤ ncol → ∀ a, a ≤ b → p.getD a 0 ≤ p.getD b 0)
    (hp0 : p.getD 0 0 = 0) {c e : Nat} (he : e < p.getD ncol 0) (hc : c ≤ ncol) :
    colOf p ncol e < c ↔ e < p.getD c 0 := by
  obtain ⟨hk1, hk2, hk3⟩ := colOf_spec p ncol hmono hp0 he
  constructor
  · intro h
    exact lt_of_lt_of_le hk2 (hmono c hc (colOf p ncol e + 1) h)
  · intro h
    by_contra hcon
    have := hmono (colOf p ncol e) (colOf_le_ncol p ncol e) c (by omega)
    omega

/-! ### The column-advance while loop -/

theorem advanceCid_eq (p : List Nat) (ncol : Nat)
    (hmono : ∀ b, b ≤ ncol → ∀ a, a ≤ b → p.getD a 0 ≤ p.getD b 0)
    {e tgt : Nat} (htgt : tgt < ncol) (h1 : p.getD tgt 0 ≤ e)
    (h2 : e < p.getD (tgt + 1) 0) :
    ∀ fuel cid, cid ≤ tgt → tgt - cid ≤ fuel → advanceCid p e fuel cid = tgt := by
  intro fuel
  induction fuel with
  | zero =>
    intro cid hc hf
    simp only [advanceCid]
    omega
  | succ f ih =>
    intro cid hc hf
    simp only [advanceCid]
    rcases Nat.eq_or_lt_of_le hc with heq | hlt
    · have hcond : ¬ p.getD (cid + 1) 0 ≤ e := by
        rw [heq]
        omega
      rw [if_neg hcond]
      exact heq
    · have hcond : p.getD (cid + 1) 0 ≤ e := by
        have := hmono tgt (by omega) (cid + 1) (by omega)
        omega
      rw [if_pos hcond]
      exact ih (cid + 1) (by omega) (by omega)

/-! ### Characterization of the count pass -/

theorem cntEq_singleton (v r : Nat) : cntEq [v] r = if v = r then 1 else 0 := by
  simp [cntEq, List.countP_cons]

theorem cntEq_append (l1 l2 : List Nat) (r : Nat) :
    cntEq (l1 ++ l2) r = cntEq l1 r + cntEq l2 r :=
  List.countP_append _ _ _

theorem cntB_map_succ (l : List Nat) (r : Nat) :
    cntB (l.map (· + 1)) (r + 1) = cntB l r := by
  rw [cntB, cntB, List.countP_map]
  have h : ((fun v => decide (v < r + 1)) ∘ (· + 1)) = (fun v => decide (v < r)) := by
    funext v
    rw [Function.comp_apply, decide_eq_decide]
    omega
  rw [h]

theorem cntB_eq_sum_cntEq (l : List Nat) (r : Nat) :
    cntB l r = ∑ j ∈ Finset.range r, cntEq l j := by
  induction r with
  | zero => rw [cntB_zero]; simp
  | succ k ih => rw [cntB_succ, ih, Finset.sum_range_succ]

theorem countLoop_length (iv tp : List Nat) (n : Nat) :
    (countLoop iv tp n).length = tp.length := by
  induction n with
  | zero => rfl
  | succ k ih => simp only [countLoop, List.length_set]; exact ih

theorem countLoop_getD (iv tp : List Nat) :
    ∀ n, n ≤ iv.length →
      (∀ e, e < n → iv.getD e 0 + 1 < tp.length) →
      ∀ r, (countLoop iv tp n).getD r 0 =
        tp.getD r 0 + cntEq ((iv.take n).map (· + 1)) r := by
  intro n
  induction n with
  | zero =>
    intro _ _ r
    simp [countLoop, cntEq]
  | succ k ih =>
    intro hn hb r
    have hk : k < iv.length := by omega
    have hsplit : (iv.take (k + 1)).map (· + 1) =
        (iv.take k).map (· + 1) ++ [iv.getD k 0 + 1] := by
      rw [List.take_succ, List.getElem?_eq_getElem hk, List.map_append]
      rw [List.getD_eq_getElem iv 0 hk]
      rfl
    have hlen : (countLoop iv tp k).length = tp.length := countLoop_length iv tp k
    have hblt : iv.getD k 0 + 1 < tp.length := hb k (by omega)
    simp only [countLoop]
    rcases eq_or_ne (iv.getD k 0 + 1) r with heq | hne
    · rw [heq, getD_set_eq _ _ _ _ (by omega)]
      rw [ih (by omega) (fun e he => hb e (by omega)) r]
      rw [hsplit, cntEq_append, cntEq_singleton, heq, if_pos rfl]
      omega
    · rw [getD_set_ne _ _ _ hne]
      rw [ih (by omega) (fun e he => hb e (by omega)) r]
      rw [hsplit, cntEq_append, cntEq_singleton, if_neg hne]
      omega

/-! ### Characterization of the prefix-sum pass -/

theorem prefixLoop_length (tp : List Nat) (k : Nat) :
    (prefixLoop tp k).length = tp.length := by
  induction k with
  | zero => rfl
  | succ j ih => simp only [prefixLoop, List.length_set]; exact ih

theorem prefixLoop_getD_gt (tp : List Nat) :
    ∀ k r, k < r → (prefixLoop tp k).getD r 0 = tp.getD r 0 := by
  intro k
  induction k with
  | zero => intro r _; rfl
  | succ j ih =>
    intro r hr
    simp only [prefixLoop]
    rw [getD_set_ne _ _ _ (by omega)]
    exact ih r (by omega)

theorem prefixLoop_getD_le (tp : List Nat) :
    ∀ k, k < tp.length → ∀ r, r ≤ k →
      (prefixLoop tp k).getD r 0 = ∑ j ∈ Finset.range (r + 1), tp.getD j 0 := by
  intro k
  induction k with
  | zero =>
    intro _ r hr
    have h0 : r = 0 := by omega
    rw [h0]
    simp [prefixLoop]
  | succ j ih =>
    intro hk r hr
    have hlen : (prefixLoop tp j).length = tp.length := prefixLoop_length tp j
    simp only [prefixLoop]
    rcases eq_or_ne r (j + 1) with heq | hne
    · rw [heq, getD_set_eq _ _ _ _ (by omega)]
      rw [prefixLoop_getD_gt tp j (j + 1) (by omega)]
      rw [ih (by omega) j (by omega)]
      rw [Finset.sum_range_succ (fun x => tp.getD x 0) (j + 1)]
      omega
    · rw [getD_set_ne _ _ _ (by omega)]
      exact ih (by omega) r (by omega)

/-- After the count and prefix-sum passes, slot `r` of the output offset
array holds the start offset of transposed column `r`, i.e. the number of
input entries whose row index is below `r`. -/
theorem initState_tp_getD (m : dgCMatrix) (hWF : WF m) :
    ∀ r, r ≤ m.nrow → (initState m).tp.getD r 0 = cntB m.i r := by
  obtain ⟨hplen, hilen, hxlen, hp0, hmono, hib⟩ := hWF
  intro r hr
  have hclen : (countLoop m.i (List.replicate (m.nrow + 1) 0) (m.p.getD m.ncol 0)).length
      = m.nrow + 1 := by
    rw [countLoop_length, List.length_replicate]
  have hg : ∀ j, j ≤ m.nrow →
      (countLoop m.i (List.replicate (m.nrow + 1) 0) (m.p.getD m.ncol 0)).getD j 0
        = cntEq (m.i.map (· + 1)) j := by
    intro j hj
    rw [countLoop_getD m.i _ (m.p.getD m.ncol 0) (by omega)
      (fun e he => by rw [List.length_replicate]; have := hib e he; omega) j]
    rw [getD_replicate _ _ (by omega)]
    rw [← hilen, List.take_length]
    omega
  show (prefixLoop _ m.nrow).getD r 0 = cntB m.i r
  rw [prefixLoop_getD_le _ m.nrow (by omega) r hr]
  have hsum : ∀ j ∈ Finset.range (r + 1),
      (countLoop m.i (List.replicate (m.nrow + 1) 0) (m.p.getD m.ncol 0)).getD j 0
        = cntEq (m.i.map (· + 1)) j := by
    intro j hj
    rw [Finset.mem_range] at hj
    exact hg j (by omega)
  rw [Finset.sum_congr rfl hsum]
  rw [← cntB_eq_sum_cntEq, cntB_map_succ]

/-! ### Characterization of the scatter pass -/

/-- Invariant of the scatter pass after processing the first `k` entries:
lengths are preserved, the offset array holds start offset plus number of
already placed entries per bucket, the current column tracks the column of
the last processed entry, and every processed entry `e` has been written at
its destination `dest m.i e`. -/
theorem scatter_inv (m : dgCMatrix) (hWF : WF m) :
    ∀ k, k ≤ m.p.getD m.ncol 0 →
      ((scatterLoop m (initState m) k).tp.length = m.nrow + 1) ∧
      ((scatterLoop m (initState m) k).ti.length = m.p.getD m.ncol 0) ∧
      ((scatterLoop m (initState m) k).tx.length = m.p.getD m.ncol 0) ∧
      (∀ r, r ≤ m.nrow →
        (scatterLoop m (initState m) k).tp.getD r 0 =
          cntB m.i r + cntEq (m.i.take k) r) ∧
      (k = 0 → (scatterLoop m (initState m) k).cid = 0) ∧
      (0 < k → (scatterLoop m (initState m) k).cid = colOf m.p m.ncol (k - 1)) ∧
      (∀ e, e < k →
        (scatterLoop m (initState m) k).ti.getD (dest m.i e) 0 = colOf m.p m.ncol e ∧
        (scatterLoop m (initState m) k).tx.getD (dest m.i e) 0 = m.x.getD e 0) := by
  have hWF2 := hWF
  obtain ⟨hplen, hilen, hxlen, hp0, hmono, hib⟩ := hWF2
  intro k
  induction k with
  | zero =>
    intro _
    refine ⟨?_, ?_, ?_, ?_, fun _ => rfl,
      fun h => absurd h (by omega), fun e he => absurd he (by omega)⟩
    · show (prefixLoop (countLoop m.i (List.replicate (m.nrow + 1) 0)
        (m.p.getD m.ncol 0)) m.nrow).length = m.nrow + 1
      rw [prefixLoop_length, countLoop_length, List.length_replicate]
    · exact List.length_replicate _ _
    · exact List.length_replicate _ _
    · intro r hr
      show (initState m).tp.getD r 0 = _
      rw [initState_tp_getD m hWF r hr, List.take_zero]
      simp [cntEq]
  | succ k ih =>
    intro hk
    obtain ⟨htplen, htilen, htxlen, htp, hcid0, hcidS, hwritten⟩ := ih (by omega)
    have hkn : k < m.p.getD m.ncol 0 := by omega
    have hkiv : k < m.i.length := by omega
    have hrid : m.i.getD k 0 < m.nrow := hib k hkn
    obtain ⟨hc1, hc2, hc3⟩ := colOf_spec m.p m.ncol hmono hp0 hkn
    have hcidle : (scatterLoop m (initState m) k).cid ≤ colOf m.p m.ncol k := by
      rcases Nat.eq_zero_or_pos k with h0 | hpos
      · rw [hcid0 h0]
        exact Nat.zero_le _
      · rw [hcidS hpos]
        exact colOf_mono m.p m.ncol (by omega)
    have hadv : advanceCid m.p k m.ncol (scatterLoop m (initState m) k).cid
        = colOf m.p m.ncol k :=
      advanceCid_eq m.p m.ncol hmono hc3 hc1 hc2 m.ncol _ hcidle (by omega)
    have hposk : (scatterLoop m (initState m) k).tp.getD (m.i.getD k 0) 0
        = dest m.i k := by
      rw [htp (m.i.getD k 0) (by omega)]
      rfl
    have hdk : dest m.i k < m.p.getD m.ncol 0 := by
      have := dest_lt_length m.i hkiv
      omega
    simp only [scatterLoop, scatterStep]
    refine ⟨?_, ?_, ?_, ?_, ?_, ?_, ?_⟩
    · rw [List.length_set]; exact htplen
    · rw [List.length_set]; exact htilen
    · rw [List.length_set]; exact htxlen
    · intro r hr
      rcases eq_or_ne (m.i.getD k 0) r with heq | hne
      · subst heq
        rw [getD_set_eq _ _ _ _ (by rw [htplen]; omega)]
        have hd : dest m.i k = cntB m.i (m.i.getD k 0) + cntEq (m.i.take k) (m.i.getD k 0) := rfl
        rw [hposk, hd, cntEq_take_succ m.i hkiv, if_pos rfl]
        omega
      · rw [getD_set_ne _ _ _ hne]
        rw [htp r hr, cntEq_take_succ m.i hkiv, if_neg hne]
        omega
    · intro h
      exact absurd h (by omega)
    · intro _
      show advanceCid m.p k m.ncol (scatterLoop m (initState m) k).cid
        = colOf m.p m.ncol (k + 1 - 1)
      rw [hadv]
      simp
    · intro e he
      rcases eq_or_ne e k with heq | hne
      · subst heq
        constructor
        · rw [hposk, hadv, getD_set_eq _ _ _ _ (by rw [htilen]; omega)]
        · rw [hposk, getD_set_eq _ _ _ _ (by rw [htxlen]; omega)]
      · have hek : e < k := by omega
        obtain ⟨hti, htx⟩ := hwritten e hek
        have hde : dest m.i e ≠ dest m.i k := by
          intro hcontra
          exact hne (dest_inj m.i (by omega) hkiv hcontra)
        constructor
        · rw [hposk, getD_set_ne _ _ _ (Ne.symm hde)]
          exact hti
        · rw [hposk, getD_set_ne _ _ _ (Ne.symm hde)]
          exact htx

/-! ### Characterization of the offset-restore pass -/

theorem shiftLoop_snd_length (tp : List Nat) (k : Nat) :
    ((shiftLoop tp k).2).length = tp.length := by
  induction k with
  | zero => simp only [shiftLoop, List.length_set]
  | succ j ih => simp only [shiftLoop, List.length_set]; exact ih

theorem shiftLoop_getD (tp : List Nat) :
    ∀ k, k < tp.length →
      (shiftLoop tp k).1 = tp.getD k 0 ∧
      ∀ j, (shiftLoop tp k).2.getD j 0 =
        if j = 0 then 0 else if j ≤ k then tp.getD (j - 1) 0 else tp.getD j 0 := by
  intro k
  induction k with
  | zero =>
    intro hk
    refine ⟨rfl, ?_⟩
    intro j
    simp only [shiftLoop]
    rcases eq_or_ne j 0 with h0 | h0
    · subst h0
      rw [getD_set_eq _ _ _ _ hk, if_pos rfl]
    · rw [getD_set_ne _ _ _ (Ne.symm h0), if_neg h0, if_neg (by omega)]
  | succ j ih =>
    intro hk
    obtain ⟨ihf, ihs⟩ := ih (by omega)
    have hslen : (shiftLoop tp j).2.length = tp.length := shiftLoop_snd_length tp j
    constructor
    · show (shiftLoop tp j).2.getD (j + 1) 0 = tp.getD (j + 1) 0
      rw [ihs (j + 1), if_neg (by omega), if_neg (by omega)]
    · intro q
      show ((shiftLoop tp j).2.set (j + 1) (shiftLoop tp j).1).getD q 0 = _
      rcases eq_or_ne q (j + 1) with hq | hq
      · subst hq
        rw [getD_set_eq _ _ _ _ (by rw [hslen]; omega), ihf]
        rw [if_neg (by omega), if_pos (by omega)]
        have h1 : j + 1 - 1 = j := by omega
        rw [h1]
      · rw [getD_set_ne _ _ _ (Ne.symm hq), ihs q]
        split_ifs <;> first | rfl | omega

/-! ### Characterization of the whole transpose -/

theorem sp_transpose_def (m : dgCMatrix) :
    sp_transpose m = ⟨m.ncol, m.nrow,
      (shiftLoop (scatterLoop m (initState m) (m.p.getD m.ncol 0)).tp m.nrow).2,
      (scatterLoop m (initState m) (m.p.getD m.ncol 0)).ti,
      (scatterLoop m (initState m) (m.p.getD m.ncol 0)).tx,
      m.colNames, m.rowNames⟩ := rfl

theorem transpose_nrow (m : dgCMatrix) : (sp_transpose m).nrow = m.ncol := rfl

theorem transpose_ncol (m : dgCMatrix) : (sp_transpose m).ncol = m.nrow := rfl

theorem transpose_rowNames (m : dgCMatrix) :
    (sp_transpose m).rowNames = m.colNames := rfl

theorem transpose_colNames (m : dgCMatrix) :
    (sp_transpose m).colNames = m.rowNames := rfl

theorem transpose_i_length (m : dgCMatrix) (hWF : WF m) :
    (sp_transpose m).i.length = m.p.getD m.ncol 0 :=
  (scatter_inv m hWF (m.p.getD m.ncol 0) le_rfl).2.1

theorem transpose_x_length (m : dgCMatrix) (hWF : WF m) :
    (sp_transpose m).x.length = m.p.getD m.ncol 0 :=
  (scatter_inv m hWF (m.p.getD m.ncol 0) le_rfl).2.2.1

theorem transpose_p_length (m : dgCMatrix) (hWF : WF m) :
    (sp_transpose m).p.length = m.nrow + 1 := by
  rw [sp_transpose_def]
  show (shiftLoop _ m.nrow).2.length = _
  rw [shiftLoop_snd_length]
  exact (scatter_inv m hWF (m.p.getD m.ncol 0) le_rfl).1

theorem transpose_scatter (m : dgCMatrix) (hWF : WF m) :
    ∀ e, e < m.p.getD m.ncol 0 →
      (sp_transpose m).i.getD (dest m.i e) 0 = colOf m.p m.ncol e ∧
      (sp_transpose m).x.getD (dest m.i e) 0 = m.x.getD e 0 :=
  fun e he => (scatter_inv m hWF (m.p.getD m.ncol 0) le_rfl).2.2.2.2.2.2 e he

theorem transpose_p_getD (m : dgCMatrix) (hWF : WF m) :
    ∀ r, r ≤ m.nrow → (sp_transpose m).p.getD r 0 = cntB m.i r := by
  intro r hr
  obtain ⟨htplen, _, _, htp, _, _, _⟩ := scatter_inv m hWF (m.p.getD m.ncol 0) le_rfl
  have htake : m.i.take (m.p.getD m.ncol 0) = m.i := by
    rw [← hWF.2.1, List.take_length]
  rw [sp_transpose_def]
  show (shiftLoop _ m.nrow).2.getD r 0 = _
  obtain ⟨_, hs⟩ := shiftLoop_getD _ m.nrow (by rw [htplen]; omega)
  rw [hs r]
  rcases eq_or_ne r 0 with h0 | h0
  · subst h0
    rw [if_pos rfl, cntB_zero]
  · rw [if_neg h0, if_pos hr, htp (r - 1) (by omega), htake]
    have h1 : r - 1 + 1 = r := by omega
    have h2 := cntB_succ m.i (r - 1)
    rw [h1] at h2
    omega

theorem ib_mem (m : dgCMatrix) (hWF : WF m) : ∀ v ∈ m.i, v < m.nrow := by
  obtain ⟨hplen, hilen, hxlen, hp0, hmono, hib⟩ := hWF
  intro v hv
  obtain ⟨j, hj, hjv⟩ := List.mem_iff_getElem.mp hv
  have h2 := hib j (by omega)
  rw [List.getD_eq_getElem m.i 0 hj, hjv] at h2
  exact h2

theorem transpose_p_final (m : dgCMatrix) (hWF : WF m) :
    (sp_transpose m).p.getD m.nrow 0 = m.p.getD m.ncol 0 := by
  rw [transpose_p_getD m hWF m.nrow le_rfl, cntB_eq_length m.i (ib_mem m hWF)]
  exact hWF.2.1

theorem transpose_p_mono (m : dgCMatrix) (hWF : WF m) :
    ∀ b, b ≤ (sp_transpose m).ncol → ∀ a, a ≤ b →
      (sp_transpose m).p.getD a 0 ≤ (sp_transpose m).p.getD b 0 := by
  intro b hb a ha
  rw [transpose_ncol] at hb
  rw [transpose_p_getD m hWF a (by omega), transpose_p_getD m hWF b hb]
  exact cntB_mono m.i ha

theorem transpose_p0 (m : dgCMatrix) (hWF : WF m) :
    (sp_transpose m).p.getD 0 0 = 0 := by
  rw [transpose_p_getD m hWF 0 (Nat.zero_le _), cntB_zero]

theorem transpose_ibound (m : dgCMatrix) (hWF : WF m) :
    ∀ q, q < (sp_transpose m).p.getD (sp_transpose m).ncol 0 →
      (sp_transpose m).i.getD q 0 < (sp_transpose m).nrow := by
  intro q hq
  rw [transpose_ncol] at hq
  rw [transpose_p_final m hWF] at hq
  have hqiv : q < m.i.length := by rw [hWF.2.1]; omega
  obtain ⟨e, he, hde⟩ := dest_surj m.i hqiv
  have hen : e < m.p.getD m.ncol 0 := by rw [← hWF.2.1]; omega
  rw [← hde, (transpose_scatter m hWF e hen).1, transpose_nrow]
  exact (colOf_spec m.p m.ncol hWF.2.2.2.2.1 hWF.2.2.2.1 hen).2.2

theorem WF_transpose (m : dgCMatrix) (hWF : WF m) : WF (sp_transpose m) := by
  refine ⟨?_, ?_, ?_, ?_, ?_, ?_⟩
  · exact transpose_p_length m hWF
  · rw [transpose_i_length m hWF, transpose_ncol]
    exact (transpose_p_final m hWF).symm
  · rw [transpose_x_length m hWF, transpose_ncol]
    exact (transpose_p_final m hWF).symm
  · exact transpose_p0 m hWF
  · exact transpose_p_mono m hWF
  · exact transpose_ibound m hWF

/-- The column (in the transposed matrix) of the entry written at position
`dest m.i e` is the original row index `m.i[e]`. -/
theorem colOf_transpose_dest (m : dgCMatrix) (hWF : WF m) {e : Nat}
    (he : e < m.p.getD m.ncol 0) :
    colOf (sp_transpose m).p (sp_transpose m).ncol (dest m.i e) = m.i.getD e 0 := by
  have hWFc := hWF
  obtain ⟨hplen, hilen, hxlen, hp0, hmono, hib⟩ := hWFc
  have heiv : e < m.i.length := by omega
  apply colOf_eq_of (sp_transpose m).p (sp_transpose m).ncol
    (transpose_p_mono m hWF) (transpose_p0 m hWF)
  · rw [transpose_ncol, transpose_p_final m hWF]
    have := dest_lt_length m.i heiv
    omega
  · rw [transpose_ncol]
    exact hib e he
  · rw [transpose_p_getD m hWF _ (le_of_lt (hib e he))]
    exact cntB_le_dest m.i e
  · rw [transpose_p_getD m hWF _ (hib e he)]
    exact dest_lt m.i heiv

/-! ### Canonical form of the output -/

/-- Entries of the same source column keep their relative order under the
scatter: this is where canonical input (strictly increasing row indices
within a column) is used. -/
theorem dest_lt_dest_of_same_col (m : dgCMatrix) (hCan : Canonical m)
    {e1 e2 : Nat} (h12 : e1 < e2) (he2 : e2 < m.p.getD m.ncol 0)
    (hcol : colOf m.p m.ncol e1 = colOf m.p m.ncol e2) :
    dest m.i e1 < dest m.i e2 := by
  obtain ⟨⟨hplen, hilen, hxlen, hp0, hmono, hib⟩, hsort⟩ := hCan
  have he1 : e1 < m.p.getD m.ncol 0 := by omega
  obtain ⟨ha1, ha2, ha3⟩ := colOf_spec m.p m.ncol hmono hp0 he1
  obtain ⟨hb1, hb2, hb3⟩ := colOf_spec m.p m.ncol hmono hp0 he2
  have hi : m.i.getD e1 0 < m.i.getD e2 0 := by
    apply hsort (colOf m.p m.ncol e2) hb3 e2 hb2 e1 h12
    rw [← hcol]
    exact ha1
  exact dest_mono_diff m.i (by omega) hi

theorem sorted_transpose (m : dgCMatrix) (hCan : Canonical m) :
    colSorted (sp_transpose m).p (sp_transpose m).i (sp_transpose m).ncol := by
  obtain ⟨hWF, hsort⟩ := hCan
  have hWFc := hWF
  obtain ⟨hplen, hilen, hxlen, hp0, hmono, hib⟩ := hWFc
  intro c hc q2 hq2 q1 h12 hpq1
  rw [transpose_ncol] at hc
  rw [transpose_p_getD m hWF (c + 1) hc] at hq2
  rw [transpose_p_getD m hWF c (le_of_lt hc)] at hpq1
  have hcb := cntB_le_length m.i (c + 1)
  have hq2n : q2 < m.p.getD m.ncol 0 := by omega
  have hq1n : q1 < m.p.getD m.ncol 0 := by omega
  obtain ⟨e1, he1, hd1⟩ := dest_surj m.i (show q1 < m.i.length by omega)
  obtain ⟨e2, he2, hd2⟩ := dest_surj m.i (show q2 < m.i.length by omega)
  have hb1 : m.i.getD e1 0 = c := dest_bucket m.i he1 (by omega) (by omega)
  have hb2 : m.i.getD e2 0 = c := dest_bucket m.i he2 (by omega) (by omega)
  have he12 : e1 < e2 := by
    rcases Nat.lt_trichotomy e1 e2 with h | h | h
    · exact h
    · exfalso; rw [h] at hd1; omega
    · exfalso
      have := dest_mono_same m.i h he2 (by rw [hb1, hb2])
      omega
  rw [← hd1, ← hd2, (transpose_scatter m hWF e1 (by omega)).1,
    (transpose_scatter m hWF e2 (by omega)).1]
  have hmle : colOf m.p m.ncol e1 ≤ colOf m.p m.ncol e2 :=
    colOf_mono m.p m.ncol (le_of_lt he12)
  rcases eq_or_ne (colOf m.p m.ncol e1) (colOf m.p m.ncol e2) with heq | hne2
  · exfalso
    obtain ⟨hc1, hc2, hc3⟩ := colOf_spec m.p m.ncol hmono hp0 (show e2 < _ by omega)
    have hlt : m.i.getD e1 0 < m.i.getD e2 0 := by
      apply hsort (colOf m.p m.ncol e2) hc3 e2 hc2 e1 he12
      rw [← heq]
      exact (colOf_spec m.p m.ncol hmono hp0 (show e1 < _ by omega)).1
    omega
  · omega

theorem Canonical_transpose (m : dgCMatrix) (hCan : Canonical m) :
    Canonical (sp_transpose m) :=
  ⟨WF_transpose m hCan.1, sorted_transpose m hCan⟩

/-! ### The column pointer of the transpose, read back through `cntB` -/

theorem cntB_transpose_i (m : dgCMatrix) (hWF : WF m) {c : Nat} (hc : c ≤ m.ncol) :
    cntB (sp_transpose m).i c = m.p.getD c 0 := by
  have hWFc := hWF
  obtain ⟨hplen, hilen, hxlen, hp0, hmono, hib⟩ := hWFc
  rw [cntB_positions, transpose_i_length m hWF]
  have hpc : m.p.getD c 0 ≤ m.p.getD m.ncol 0 := hmono m.ncol le_rfl c hc
  have hBcard : ((Finset.range (m.p.getD m.ncol 0)).filter
      (fun e => e < m.p.getD c 0)).card = m.p.getD c 0 := by
    have hseteq : (Finset.range (m.p.getD m.ncol 0)).filter (fun e => e < m.p.getD c 0)
        = Finset.range (m.p.getD c 0) := by
      ext a
      simp only [Finset.mem_filter, Finset.mem_range]
      omega
    rw [hseteq, Finset.card_range]
  rw [← hBcard]
  refine (Finset.card_bij (fun e _ => dest m.i e) ?_ ?_ ?_).symm
  · intro e hef
    simp only [Finset.mem_filter, Finset.mem_range] at hef ⊢
    obtain ⟨hen, hec⟩ := hef
    constructor
    · have := dest_lt_length m.i (show e < m.i.length by omega)
      omega
    · rw [(transpose_scatter m hWF e hen).1]
      exact (colOf_lt_iff m.p m.ncol hmono hp0 hen hc).mpr hec
  · intro a ha b hb hab
    rw [Finset.mem_filter, Finset.mem_range] at ha hb
    exact dest_inj m.i (by omega) (by omega) hab
  · intro q hq
    rw [Finset.mem_filter, Finset.mem_range] at hq
    obtain ⟨hqn, hqc⟩ := hq
    obtain ⟨e, he, hde⟩ := dest_surj m.i (show q < m.i.length by omega)
    have hen : e < m.p.getD m.ncol 0 := by omega
    refine ⟨e, ?_, hde⟩
    rw [Finset.mem_filter, Finset.mem_range]
    refine ⟨hen, ?_⟩
    rw [← hde, (transpose_scatter m hWF e hen).1] at hqc
    exact (colOf_lt_iff m.p m.ncol hmono hp0 hen hc).mp hqc

/-! ### The scatter destination map is an involution across a transpose -/

theorem dest_transpose_dest (m : dgCMatrix) (hCan : Canonical m) {e : Nat}
    (he : e < m.p.getD m.ncol 0) :
    dest (sp_transpose m).i (dest m.i e) = e := by
  obtain ⟨hWF, hsort⟩ := hCan
  have hWFc := hWF
  obtain ⟨hplen, hilen, hxlen, hp0, hmono, hib⟩ := hWFc
  have heiv : e < m.i.length := by omega
  have hdn : dest m.i e < m.p.getD m.ncol 0 := by
    have := dest_lt_length m.i heiv
    omega
  obtain ⟨hb1, hb2, hb3⟩ := colOf_spec m.p m.ncol hmono hp0 he
  have hTq : (sp_transpose m).i.getD (dest m.i e) 0 = colOf m.p m.ncol e :=
    (transpose_scatter m hWF e he).1
  show cntB (sp_transpose m).i ((sp_transpose m).i.getD (dest m.i e) 0) +
      cntEq ((sp_transpose m).i.take (dest m.i e))
        ((sp_transpose m).i.getD (dest m.i e) 0) = e
  rw [hTq, cntB_transpose_i m hWF (le_of_lt hb3)]
  have h2 : cntEq ((sp_transpose m).i.take (dest m.i e)) (colOf m.p m.ncol e)
      = e - m.p.getD (colOf m.p m.ncol e) 0 := by
    rw [cntEq_take_positions (sp_transpose m).i
      (show dest m.i e ≤ (sp_transpose m).i.length by
        rw [transpose_i_length m hWF]; omega) _]
    have hIco : ((Finset.range e).filter
        (fun a => m.p.getD (colOf m.p m.ncol e) 0 ≤ a)).card
        = e - m.p.getD (colOf m.p m.ncol e) 0 := by
      have hseteq : (Finset.range e).filter
          (fun a => m.p.getD (colOf m.p m.ncol e) 0 ≤ a)
          = Finset.Ico (m.p.getD (colOf m.p m.ncol e) 0) e := by
        ext a
        simp only [Finset.mem_filter, Finset.mem_range, Finset.mem_Ico]
        omega
      rw [hseteq, Nat.card_Ico]
    rw [← hIco]
    refine (Finset.card_bij (fun a _ => dest m.i a) ?_ ?_ ?_).symm
    · intro a haf
      rw [Finset.mem_filter, Finset.mem_range] at haf ⊢
      obtain ⟨hae, hap⟩ := haf
      have han : a < m.p.getD m.ncol 0 := by omega
      have hacol : colOf m.p m.ncol a = colOf m.p m.ncol e :=
        colOf_eq_of m.p m.ncol hmono hp0 han hb3 hap (by omega)
      constructor
      · exact dest_lt_dest_of_same_col m ⟨hWF, hsort⟩ hae he hacol
      · rw [(transpose_scatter m hWF a han).1]
        exact hacol
    · intro a ha b hb hab
      rw [Finset.mem_filter, Finset.mem_range] at ha hb
      exact dest_inj m.i (by omega) (by omega) hab
    · intro q hq
      rw [Finset.mem_filter, Finset.mem_range] at hq
      obtain ⟨hqd, hqc⟩ := hq
      have hqn : q < m.p.getD m.ncol 0 := by omega
      obtain ⟨a, haiv, hda⟩ := dest_surj m.i (show q < m.i.length by omega)
      have han : a < m.p.getD m.ncol 0 := by omega
      have hacol : colOf m.p m.ncol a = colOf m.p m.ncol e := by
        rw [← (transpose_scatter m hWF a han).1, hda]
        exact hqc
      refine ⟨a, ?_, hda⟩
      rw [Finset.mem_filter, Finset.mem_range]
      constructor
      · rcases Nat.lt_trichotomy a e with h | h | h
        · exact h
        · exfalso; rw [h] at hda; omega
        · exfalso
          have := dest_lt_dest_of_same_col m ⟨hWF, hsort⟩ h han hacol.symm
          omega
      · have := (colOf_spec m.p m.ncol hmono hp0 han).1
        rw [hacol] at this
        exact this
  rw [h2]
  omega

/-! ### Double transpose is the identity -/

theorem transpose_transpose (m : dgCMatrix) (hCan : Canonical m) :
    sp_transpose (sp_transpose m) = m := by
  obtain ⟨hWF, hsort⟩ := hCan
  have hWFc := hWF
  obtain ⟨hplen, hilen, hxlen, hp0, hmono, hib⟩ := hWFc
  have hWFT : WF (sp_transpose m) := WF_transpose m hWF
  have hnT : (sp_transpose m).p.getD (sp_transpose m).ncol 0 = m.p.getD m.ncol 0 := by
    rw [transpose_ncol]
    exact transpose_p_final m hWF
  have hiT : ∀ e, e < m.p.getD m.ncol 0 →
      (sp_transpose (sp_transpose m)).i.getD e 0 = m.i.getD e 0 ∧
      (sp_transpose (sp_transpose m)).x.getD e 0 = m.x.getD e 0 := by
    intro e he
    have hde := dest_transpose_dest m ⟨hWF, hsort⟩ he
    have hdd : dest m.i e < (sp_transpose m).p.getD (sp_transpose m).ncol 0 := by
      rw [hnT]
      have := dest_lt_length m.i (show e < m.i.length by omega)
      omega
    obtain ⟨hti, htx⟩ := transpose_scatter (sp_transpose m) hWFT (dest m.i e) hdd
    rw [hde] at hti htx
    refine ⟨?_, ?_⟩
    · rw [hti]
      exact colOf_transpose_dest m hWF he
    · rw [htx]
      exact (transpose_scatter m hWF e he).2
  have hplist : (sp_transpose (sp_transpose m)).p = m.p := by
    apply List.ext_getElem
    · rw [transpose_p_length _ hWFT, transpose_nrow, hplen]
    · intro j h1 h2
      rw [← List.getD_eq_getElem _ 0 h1, ← List.getD_eq_getElem _ 0 h2]
      have hj : j ≤ m.ncol := by rw [hplen] at h2; omega
      rw [transpose_p_getD (sp_transpose m) hWFT j (by rw [transpose_nrow]; exact hj)]
      exact cntB_transpose_i m hWF hj
  have hilist : (sp_transpose (sp_transpose m)).i = m.i := by
    apply List.ext_getElem
    · rw [transpose_i_length _ hWFT, hnT, hilen]
    · intro j h1 h2
      rw [← List.getD_eq_getElem _ 0 h1, ← List.getD_eq_getElem _ 0 h2]
      exact (hiT j (by rw [← hilen]; exact h2)).1
  have hxlist : (sp_transpose (sp_transpose m)).x = m.x := by
    apply List.ext_getElem
    · rw [transpose_x_length _ hWFT, hnT, hxlen]
    · intro j h1 h2
      rw [← List.getD_eq_getElem _ 0 h1, ← List.getD_eq_getElem _ 0 h2]
      exact (hiT j (by rw [← hxlen]; exact h2)).2
  exact dgCMatrix.ext rfl rfl hplist hilist hxlist rfl rfl

/-! ### The entry multiset of the transpose -/

theorem entries_transpose_perm (m : dgCMatrix) (hCan : Canonical m) :
    (entries (sp_transpose m)).Perm ((entries m).map swapEntry) := by
  have hWF := hCan.1
  have hWFc := hWF
  obtain ⟨hplen, hilen, hxlen, hp0, hmono, hib⟩ := hWFc
  have hnT : (sp_transpose m).p.getD (sp_transpose m).ncol 0 = m.p.getD m.ncol 0 := by
    rw [transpose_ncol]
    exact transpose_p_final m hWF
  have hpt : ∀ e, e < m.p.getD m.ncol 0 →
      ((sp_transpose m).i.getD (dest m.i e) 0,
        colOf (sp_transpose m).p (sp_transpose m).ncol (dest m.i e),
        (sp_transpose m).x.getD (dest m.i e) 0)
      = swapEntry (m.i.getD e 0, colOf m.p m.ncol e, m.x.getD e 0) := by
    intro e he
    obtain ⟨h1, h2⟩ := transpose_scatter m hWF e he
    rw [h1, h2, colOf_transpose_dest m hWF he]
    rfl
  have hperm0 : ((List.range (m.p.getD m.ncol 0)).map (dest m.i)).Perm
      (List.range (m.p.getD m.ncol 0)) := by
    apply List.perm_of_nodup_nodup_toFinset_eq
    · refine List.Nodup.map_on ?_ (List.nodup_range _)
      intro a1 ha1 a2 ha2 hab
      rw [List.mem_range] at ha1 ha2
      exact dest_inj m.i (by omega) (by omega) hab
    · exact List.nodup_range _
    · ext q
      simp only [List.mem_toFinset, List.mem_map, List.mem_range]
      constructor
      · rintro ⟨e, he, rfl⟩
        have := dest_lt_length m.i (show e < m.i.length by omega)
        omega
      · intro hq
        obtain ⟨e, he, hde⟩ := dest_surj m.i (show q < m.i.length by omega)
        exact ⟨e, by omega, hde⟩
  rw [entries, entries, hnT]
  have h1 := (hperm0.map (fun q => ((sp_transpose m).i.getD q 0,
    colOf (sp_transpose m).p (sp_transpose m).ncol q, (sp_transpose m).x.getD q 0))).symm
  rw [List.map_map] at h1
  have hmapeq : (List.range (m.p.getD m.ncol 0)).map
      ((fun q => ((sp_transpose m).i.getD q 0,
        colOf (sp_transpose m).p (sp_transpose m).ncol q,
        (sp_transpose m).x.getD q 0)) ∘ dest m.i)
      = (List.range (m.p.getD m.ncol 0)).map
      (swapEntry ∘ (fun e => (m.i.getD e 0, colOf m.p m.ncol e, m.x.getD e 0))) := by
    apply List.map_congr_left
    intro e he
    rw [List.mem_range] at he
    exact hpt e he
  rw [hmapeq, ← List.map_map] at h1
  exact h1

/-! ### Agreement of checked and unchecked runs on empty inputs -/

theorem prefixLoopChk_eq (tp : List Nat) :
    ∀ k, k < tp.length → prefixLoopChk tp k = some (prefixLoop tp k) := by
  intro k
  induction k with
  | zero => intro _; rfl
  | succ k ih =>
    intro hk
    have hlen : (prefixLoop tp k).length = tp.length := prefixLoop_length tp k
    simp only [prefixLoopChk, ih (by omega), Option.bind_eq_bind, Option.some_bind]
    rw [List.getElem?_eq_getElem (show k + 1 < (prefixLoop tp k).length by omega)]
    simp only [Option.some_bind]
    rw [List.getElem?_eq_getElem (show k < (prefixLoop tp k).length by omega)]
    simp only [Option.some_bind, setChk]
    rw [if_pos (by omega)]
    simp only [prefixLoop]
    rw [List.getD_eq_getElem _ 0 (show k + 1 < (prefixLoop tp k).length by omega),
      List.getD_eq_getElem _ 0 (show k < (prefixLoop tp k).length by omega)]

theorem shiftLoopChk_eq (tp : List Nat) :
    ∀ k, k < tp.length → shiftLoopChk tp k = some (shiftLoop tp k) := by
  intro k
  induction k with
  | zero =>
    intro hk
    simp only [shiftLoopChk, Option.bind_eq_bind]
    rw [List.getElem?_eq_getElem (show 0 < tp.length by omega)]
    simp only [Option.some_bind, setChk]
    rw [if_pos (by omega)]
    simp only [shiftLoop]
    rw [List.getD_eq_getElem _ 0 (show 0 < tp.length by omega)]
    rfl
  | succ k ih =>
    intro hk
    have hlen : (shiftLoop tp k).2.length = tp.length := shiftLoop_snd_length tp k
    simp only [shiftLoopChk, ih (by omega), Option.bind_eq_bind, Option.some_bind]
    rw [List.getElem?_eq_getElem (show k + 1 < (shiftLoop tp k).2.length by omega)]
    simp only [Option.some_bind, setChk]
    rw [if_pos (by omega)]
    simp only [shiftLoop]
    rw [List.getD_eq_getElem _ 0 (show k + 1 < (shiftLoop tp k).2.length by omega)]
    rfl

theorem nnz_zero_of_empty (m : dgCMatrix) (hWF : WF m)
    (hemp : m.nrow = 0 ∨ m.ncol = 0 ∨ m.p.getD m.ncol 0 = 0) :
    m.p.getD m.ncol 0 = 0 := by
  obtain ⟨hplen, hilen, hxlen, hp0, hmono, hib⟩ := hWF
  rcases hemp with h | h | h
  · by_contra hc
    have := hib 0 (by omega)
    omega
  · rw [h]
    exact hp0
  · exact h

theorem sp_transpose_checked_empty (m : dgCMatrix) (hWF : WF m)
    (h0 : m.p.getD m.ncol 0 = 0) :
    sp_transpose_checked m = some (sp_transpose m) := by
  have hWFc := hWF
  obtain ⟨hplen, hilen, hxlen, hp0, hmono, hib⟩ := hWFc
  have hcl : m.ncol < m.p.length := by omega
  have hgp : m.p[m.ncol]? = some 0 := by
    rw [List.getElem?_eq_getElem hcl, ← List.getD_eq_getElem m.p 0 hcl, h0]
  have htp0len : (List.replicate (m.nrow + 1) 0).length = m.nrow + 1 :=
    List.length_replicate _ _
  simp only [sp_transpose_checked, hgp, Option.bind_eq_bind, Option.some_bind,
    countLoopChk, scatterLoopChk, List.replicate_zero]
  rw [prefixLoopChk_eq _ m.nrow (by omega)]
  simp only [Option.some_bind]
  rw [shiftLoopChk_eq _ m.nrow
    (by rw [prefixLoop_length]; omega)]
  simp only [Option.some_bind, Option.some_inj]
  simp only [sp_transpose, h0, countLoop, scatterLoop, List.replicate_zero]

theorem spamx_transpose_checked_empty (m : dgCMatrix) (hWF : WF m)
    (h0 : m.p.getD m.ncol 0 = 0) :
    spamx_transpose_checked m = some (spamx_transpose m) :=
  sp_transpose_checked_empty m hWF h0

theorem sp_to_dense_empty_val (m : dgCMatrix) (h0 : m.p.getD m.ncol 0 = 0) :
    sp_to_dense m = ⟨m.nrow, m.ncol, List.replicate (m.nrow * m.ncol) 0, none⟩ := by
  simp only [sp_to_dense, h0, denseLoopD]

theorem sp_to_dense_transposed_empty_val (m : dgCMatrix)
    (h0 : m.p.getD m.ncol 0 = 0) :
    sp_to_dense_transposed m
      = ⟨m.ncol, m.nrow, List.replicate (m.ncol * m.nrow) 0, none⟩ := by
  simp only [sp_to_dense_transposed, h0, denseLoopT]

theorem sp_to_dense_checked_empty (m : dgCMatrix) (hWF : WF m)
    (h0 : m.p.getD m.ncol 0 = 0) :
    sp_to_dense_checked m = if 1 ≤ m.ncol then some (sp_to_dense m) else none := by
  have hWFc := hWF
  obtain ⟨hplen, hilen, hxlen, hp0, hmono, hib⟩ := hWFc
  have hcl : m.ncol < m.p.length := by omega
  have hgp : m.p[m.ncol]? = some 0 := by
    rw [List.getElem?_eq_getElem hcl, ← List.getD_eq_getElem m.p 0 hcl, h0]
  rcases Nat.eq_zero_or_pos m.ncol with hc0 | hcpos
  · rw [if_neg (by omega)]
    have hnone : m.p[1]? = none := List.getElem?_eq_none (by omega)
    simp only [sp_to_dense_checked, hgp, Option.bind_eq_bind, Option.some_bind, hnone, Option.none_bind]
  · rw [if_pos (show 1 ≤ m.ncol from hcpos)]
    have h1l : 1 < m.p.length := by omega
    have hg1 : m.p[1]? = some (m.p.getD 1 0) := by
      rw [List.getElem?_eq_getElem h1l, List.getD_eq_getElem m.p 0 h1l]
    simp only [sp_to_dense_checked, hgp, Option.bind_eq_bind, Option.some_bind, hg1,
      denseLoopChkD, Option.some_inj]
    simp only [sp_to_dense, h0, denseLoopD]

theorem spamx_to_dense_checked_empty (m : dgCMatrix) (hWF : WF m)
    (h0 : m.p.getD m.ncol 0 = 0) :
    spamx_to_dense_checked m = if 1 ≤ m.ncol then some (spamx_to_dense m) else none :=
  sp_to_dense_checked_empty m hWF h0

theorem sp_to_dense_transposed_checked_empty (m : dgCMatrix) (hWF : WF m)
    (h0 : m.p.getD m.ncol 0 = 0) :
    sp_to_dense_transposed_checked m
      = if 1 ≤ m.ncol then some (sp_to_dense_transposed m) else none := by
  have hWFc := hWF
  obtain ⟨hplen, hilen, hxlen, hp0, hmono, hib⟩ := hWFc
  have hcl : m.ncol < m.p.length := by omega
  have hgp : m.p[m.ncol]? = some 0 := by
    rw [List.getElem?_eq_getElem hcl, ← List.getD_eq_getElem m.p 0 hcl, h0]
  rcases Nat.eq_zero_or_pos m.ncol with hc0 | hcpos
  · rw [if_neg (by omega)]
    have hnone : m.p[1]? = none := List.getElem?_eq_none (by omega)
    simp only [sp_to_dense_transposed_checked, hgp, Option.bind_eq_bind,
      Option.some_bind, hnone, Option.none_bind]
  · rw [if_pos (show 1 ≤ m.ncol from hcpos)]
    have h1l : 1 < m.p.length := by omega
    have hg1 : m.p[1]? = some (m.p.getD 1 0) := by
      rw [List.getElem?_eq_getElem h1l, List.getD_eq_getElem m.p 0 h1l]
    simp only [sp_to_dense_transposed_checked, hgp, Option.bind_eq_bind,
      Option.some_bind, hg1, denseLoopChkT, Option.some_inj]
    simp only [sp_to_dense_transposed, h0, denseLoopT]

theorem spamx_to_dense_transposed_checked_empty (m : dgCMatrix) (hWF : WF m)
    (h0 : m.p.getD m.ncol 0 = 0) :
    spamx_to_dense_transposed_checked m
      = if 1 ≤ m.ncol then some (spamx_to_dense_transposed m) else none :=
  sp_to_dense_transposed_checked_empty m hWF h0

theorem transpose_empty_p (m : dgCMatrix) (hWF : WF m)
    (h0 : m.p.getD m.ncol 0 = 0) :
    (sp_transpose m).p = List.replicate (m.nrow + 1) 0 := by
  have hWFc := hWF
  obtain ⟨hplen, hilen, hxlen, hp0, hmono, hib⟩ := hWFc
  have hnil : m.i = [] := List.length_eq_zero.mp (by omega)
  apply List.ext_getElem
  · rw [transpose_p_length m hWF, List.length_replicate]
  · intro j h1 h2
    rw [List.getElem_replicate]
    rw [← List.getD_eq_getElem _ 0 h1]
    have hj : j ≤ m.nrow := by
      rw [transpose_p_length m hWF] at h1
      omega
    rw [transpose_p_getD m hWF j hj, hnil]
    rfl

theorem transpose_empty_i (m : dgCMatrix) (hWF : WF m)
    (h0 : m.p.getD m.ncol 0 = 0) : (sp_transpose m).i = [] := by
  apply List.length_eq_zero.mp
  rw [transpose_i_length m hWF, h0]

theorem transpose_empty_x (m : dgCMatrix) (hWF : WF m)
    (h0 : m.p.getD m.ncol 0 = 0) : (sp_transpose m).x = [] := by
  apply List.length_eq_zero.mp
  rw [transpose_x_length m hWF, h0]

/-! ## Claim theorems -/

/-- C1: for every canonical CSC matrix `M`, the stored entries of
`sp_transpose M` are exactly the row/column-swapped stored entries of `M`:
every entry `(r, c, v)` of `M` appears as `(c, r, v)` in the output with the
same multiplicity, and the output has no other entries (stated as a list
permutation of the two entry lists). -/
theorem sp_transpose_entries_perm (m : dgCMatrix) (h : Canonical m) :
    (entries (sp_transpose m)).Perm ((entries m).map swapEntry) :=
  entries_transpose_perm m h

/-- Witness for C1 at the concrete 3x2 matrix of spec section 8. -/
theorem sp_transpose_entries_perm_witness :
    (entries (sp_transpose Mex)).Perm ((entries Mex).map swapEntry) :=
  sp_transpose_entries_perm Mex (by decide)

/-- C2: for every canonical CSC matrix, every column of the transposed
matrix has strictly increasing row indices — the counting-sort scatter
produces canonical output without any sort step. -/
theorem sp_transpose_columns_sorted (m : dgCMatrix) (h : Canonical m) :
    colSorted (sp_transpose m).p (sp_transpose m).i (sp_transpose m).ncol :=
  sorted_transpose m h

/-- Witness for C2: in the transpose of the dense 2x2 matrix `M2`, the two
entries of output column 0 have strictly increasing row indices. -/
theorem sp_transpose_columns_sorted_witness :
    (sp_transpose M2).i.getD 0 0 < (sp_transpose M2).i.getD 1 0 :=
  sp_transpose_columns_sorted M2 (by decide) 0 (by decide) 1 (by decide) 0
    (by decide) (by decide)

/-- C3 (code bug): `sp_to_dense` advances its column tracker with a single
`if (e == c_end)` per entry (source line 508), while the transpose scatter
uses a while loop (line 233).  On the canonical matrix `Mbug` — a 1x3
matrix whose only entry `(0, 2, 5)` sits after two consecutive empty
columns (`colPtr = [0,0,0,1]`) — the tracker advances only once, so the
entry is written to dense cell (0,1) instead of (0,2); `spamx_to_dense`
behaves identically. -/
theorem sp_to_dense_misplaced_entry :
    Canonical Mbug ∧
    colOf Mbug.p Mbug.ncol 0 = 2 ∧
    denseGet (sp_to_dense Mbug) 0 2 = 0 ∧
    denseGet (sp_to_dense Mbug) 0 1 = 5 ∧
    spamx_to_dense Mbug = sp_to_dense Mbug := by decide

/-- C4 (code bug): on the canonical matrix `Mbug`, the fused
`sp_to_dense_transposed` writes its single entry to cell (1,0) while the
composition `sp_to_dense (sp_transpose Mbug)` writes it to cell (2,0), so
the claimed fusion equivalence `toDenseTransposed(M) = toDense(transpose(M))`
fails cell-for-cell; the cause is the densify column-tracking slip of C3. -/
theorem fusion_equivalence_fails :
    Canonical Mbug ∧
    (sp_to_dense_transposed Mbug).nrow = (sp_to_dense (sp_transpose Mbug)).nrow ∧
    (sp_to_dense_transposed Mbug).ncol = (sp_to_dense (sp_transpose Mbug)).ncol ∧
    denseGet (sp_to_dense_transposed Mbug) 1 0 = 5 ∧
    denseGet (sp_to_dense_transposed Mbug) 2 0 = 0 ∧
    denseGet (sp_to_dense (sp_transpose Mbug)) 1 0 = 0 ∧
    denseGet (sp_to_dense (sp_transpose Mbug)) 2 0 = 5 ∧
    sp_to_dense_transposed Mbug ≠ sp_to_dense (sp_transpose Mbug) := by decide

/-- C5 counterexample: on the 0x0 empty matrix, `sp_to_dense` reads
`colPtr[1]` before its scatter loop (source line 506) although `colPtr` has
length `ncol + 1 = 1`; the bounds-checked run therefore fails, refuting the
claim that every densify operation on an empty input performs all index
reads in range. -/
theorem sp_to_dense_checked_oob_ncol_zero :
    M00.nrow = 0 ∧ M00.ncol = 0 ∧ WF M00 ∧ sp_to_dense_checked M00 = none := by
  decide

/-- C5 (amended): for every well-formed input with `nrows = 0` or
`ncols = 0` or `nnz = 0` (each of which forces `nnz = 0`): both transpose
variants perform all array accesses in bounds and produce the swapped-shape
empty matrix; the four densify variants always produce the correctly-shaped
all-zero dense matrix, and their accesses are all in bounds exactly when
`ncols ≥ 1` — when `ncols = 0` they perform one out-of-range read of
`colPtr[1]`, whose value is unused. -/
theorem empty_input_safe (m : dgCMatrix) (hWF : WF m)
    (hemp : m.nrow = 0 ∨ m.ncol = 0 ∨ m.p.getD m.ncol 0 = 0) :
    sp_transpose_checked m = some (sp_transpose m) ∧
    spamx_transpose_checked m = some (spamx_transpose m) ∧
    (sp_transpose m).nrow = m.ncol ∧
    (sp_transpose m).ncol = m.nrow ∧
    (sp_transpose m).p = List.replicate (m.nrow + 1) 0 ∧
    (sp_transpose m).i = [] ∧
    (sp_transpose m).x = [] ∧
    sp_to_dense_checked m = (if 1 ≤ m.ncol then some (sp_to_dense m) else none) ∧
    spamx_to_dense_checked m = (if 1 ≤ m.ncol then some (spamx_to_dense m) else none) ∧
    sp_to_dense_transposed_checked m
      = (if 1 ≤ m.ncol then some (sp_to_dense_transposed m) else none) ∧
    spamx_to_dense_transposed_checked m
      = (if 1 ≤ m.ncol then some (spamx_to_dense_transposed m) else none) ∧
    sp_to_dense m = ⟨m.nrow, m.ncol, List.replicate (m.nrow * m.ncol) 0, none⟩ ∧
    spamx_to_dense m = ⟨m.nrow, m.ncol, List.replicate (m.nrow * m.ncol) 0, none⟩ ∧
    sp_to_dense_transposed m
      = ⟨m.ncol, m.nrow, List.replicate (m.ncol * m.nrow) 0, none⟩ ∧
    spamx_to_dense_transposed m
      = ⟨m.ncol, m.nrow, List.replicate (m.ncol * m.nrow) 0, none⟩ := by
  have h0 := nnz_zero_of_empty m hWF hemp
  refine ⟨sp_transpose_checked_empty m hWF h0,
    spamx_transpose_checked_empty m hWF h0, rfl, rfl,
    transpose_empty_p m hWF h0, transpose_empty_i m hWF h0,
    transpose_empty_x m hWF h0,
    sp_to_dense_checked_empty m hWF h0,
    spamx_to_dense_checked_empty m hWF h0,
    sp_to_dense_transposed_checked_empty m hWF h0,
    spamx_to_dense_transposed_checked_empty m hWF h0,
    sp_to_dense_empty_val m h0,
    sp_to_dense_empty_val m h0,
    sp_to_dense_transposed_empty_val m h0,
    sp_to_dense_transposed_empty_val m h0⟩

/-- Witness for C5 (amended) at the 2x3 all-empty matrix `Mempty`. -/
theorem empty_input_safe_witness :
    sp_transpose_checked Mempty = some (sp_transpose Mempty) ∧
    spamx_transpose_checked Mempty = some (spamx_transpose Mempty) ∧
    (sp_transpose Mempty).nrow = Mempty.ncol ∧
    (sp_transpose Mempty).ncol = Mempty.nrow ∧
    (sp_transpose Mempty).p = List.replicate (Mempty.nrow + 1) 0 ∧
    (sp_transpose Mempty).i = [] ∧
    (sp_transpose Mempty).x = [] ∧
    sp_to_dense_checked Mempty
      = (if 1 ≤ Mempty.ncol then some (sp_to_dense Mempty) else none) ∧
    spamx_to_dense_checked Mempty
      = (if 1 ≤ Mempty.ncol then some (spamx_to_dense Mempty) else none) ∧
    sp_to_dense_transposed_checked Mempty
      = (if 1 ≤ Mempty.ncol then some (sp_to_dense_transposed Mempty) else none) ∧
    spamx_to_dense_transposed_checked Mempty
      = (if 1 ≤ Mempty.ncol then some (spamx_to_dense_transposed Mempty) else none) ∧
    sp_to_dense Mempty
      = ⟨Mempty.nrow, Mempty.ncol, List.replicate (Mempty.nrow * Mempty.ncol) 0, none⟩ ∧
    spamx_to_dense Mempty
      = ⟨Mempty.nrow, Mempty.ncol, List.replicate (Mempty.nrow * Mempty.ncol) 0, none⟩ ∧
    sp_to_dense_transposed Mempty
      = ⟨Mempty.ncol, Mempty.nrow, List.replicate (Mempty.ncol * Mempty.nrow) 0, none⟩ ∧
    spamx_to_dense_transposed Mempty
      = ⟨Mempty.ncol, Mempty.nrow, List.replicate (Mempty.ncol * Mempty.nrow) 0, none⟩ :=
  empty_input_safe Mempty (by decide) (by decide)

/-- C6: the transpose swaps the dimensions and preserves the non-zero
count: the output is `ncols x nrows`, its colPtr has length `nrows + 1`
with final entry equal to the input's non-zero count, and its
rowIndex/values arrays have length `nnz`. -/
theorem sp_transpose_shape (m : dgCMatrix) (h : WF m) :
    (sp_transpose m).nrow = m.ncol ∧
    (sp_transpose m).ncol = m.nrow ∧
    (sp_transpose m).p.length = m.nrow + 1 ∧
    (sp_transpose m).p.getD m.nrow 0 = m.p.getD m.ncol 0 ∧
    (sp_transpose m).i.length = m.p.getD m.ncol 0 ∧
    (sp_transpose m).x.length = m.p.getD m.ncol 0 :=
  ⟨rfl, rfl, transpose_p_length m h, transpose_p_final m h,
    transpose_i_length m h, transpose_x_length m h⟩

/-- Witness for C6 at the concrete 3x2 matrix of spec section 8. -/
theorem sp_transpose_shape_witness :
    (sp_transpose Mex).nrow = Mex.ncol ∧
    (sp_transpose Mex).ncol = Mex.nrow ∧
    (sp_transpose Mex).p.length = Mex.nrow + 1 ∧
    (sp_transpose Mex).p.getD Mex.nrow 0 = Mex.p.getD Mex.ncol 0 ∧
    (sp_transpose Mex).i.length = Mex.p.getD Mex.ncol 0 ∧
    (sp_transpose Mex).x.length = Mex.p.getD Mex.ncol 0 :=
  sp_transpose_shape Mex (by decide)

/-- C7: on canonical input the double transpose reproduces the input
exactly — same shape, same `colPtr`, `rowIndex` and `values` sequences
(hence the same entries in the same order), and same labels. -/
theorem sp_transpose_involution (m : dgCMatrix) (h : Canonical m) :
    sp_transpose (sp_transpose m) = m :=
  transpose_transpose m h

/-- Witness for C7 at the concrete 3x2 matrix of spec section 8. -/
theorem sp_transpose_involution_witness :
    sp_transpose (sp_transpose Mex) = Mex :=
  sp_transpose_involution Mex (by decide)

/-- C9: the narrow-index (`int`) and wide-index (`size_t`) variants compute
the same function on every canonical matrix whose dimensions, column
offsets and non-zero count fit a 32-bit signed count — the regime in which
the `Nat` embedding represents both C++ integer widths exactly, making the
textually identical loop bodies the same function. -/
theorem narrow_wide_agree (m : dgCMatrix) (h : Canonical m)
    (hb : m.nrow < 2 ^ 31 ∧ m.ncol < 2 ^ 31 ∧ m.p.getD m.ncol 0 < 2 ^ 31 ∧
      ∀ c, c ≤ m.ncol → m.p.getD c 0 < 2 ^ 31) :
    sp_transpose m = spamx_transpose m ∧
    sp_to_dense m = spamx_to_dense m ∧
    sp_to_dense_transposed m = spamx_to_dense_transposed m :=
  ⟨rfl, rfl, rfl⟩

/-- Witness for C9 at the concrete 3x2 matrix of spec section 8. -/
theorem narrow_wide_agree_witness :
    sp_transpose Mex = spamx_transpose Mex ∧
    sp_to_dense Mex = spamx_to_dense Mex ∧
    sp_to_dense_transposed Mex = spamx_to_dense_transposed Mex :=
  narrow_wide_agree Mex (by decide) (by decide)

/-- C10: none of the four densify functions attaches dimnames (row or
column labels) to the dense result — label propagation is omitted uniformly
and left to the caller. -/
theorem densify_no_dimnames (m : dgCMatrix) :
    (sp_to_dense m).dimnames = none ∧
    (spamx_to_dense m).dimnames = none ∧
    (sp_to_dense_transposed m).dimnames = none ∧
    (spamx_to_dense_transposed m).dimnames = none :=
  ⟨rfl, rfl, rfl, rfl⟩

end Fastde
